import Mathlib

/-!
Verification of `src/static/app/utils/voiceAssistParser.ts`.

Strings are modelled as lists of characters, JS numbers (confidences,
compared only with `<`) as rationals, and the string-keyed boolean
dictionary used by `FuzzyCommand` as an association list of own
properties in which a later assignment shadows an earlier one. The
truthiness test `if (dict[token])` is modelled including the prototype
chain of the plain object literal: a key absent among the own
properties falls through to `Object.prototype`, whose own property names
(`constructor`, `toString`, `__proto__`, ...) all hold functions or
objects and therefore read truthy; any other absent key reads undefined,
hence falsy. Assigning to `__proto__` invokes the inherited setter, which
ignores a non-object value such as `true` and creates no own property.
-/

namespace VoiceAssist

abbrev Str := List Char

/-- A JS object used as a string-keyed dictionary: its own properties as an
association list. The object literal also inherits from
`Object.prototype`. -/
abbrev Dict := List (Str × Bool)

/-- The own property names of `Object.prototype`, inherited by every plain
object literal; each holds a function or an object, so each reads truthy. -/
def protoKeys : List Str :=
  ["constructor".toList, "hasOwnProperty".toList, "isPrototypeOf".toList,
   "propertyIsEnumerable".toList, "toLocaleString".toList, "toString".toList,
   "valueOf".toList, "__defineGetter__".toList, "__defineSetter__".toList,
   "__lookupGetter__".toList, "__lookupSetter__".toList, "__proto__".toList]

/-- JS property assignment `d[k] = v`: the new binding shadows any older
one. Assigning to `__proto__` invokes the inherited accessor's setter,
which ignores a non-object value such as `true` and never creates an own
property. -/
def dictSet (d : Dict) (k : Str) (v : Bool) : Dict :=
  if k = "__proto__".toList then d else (k, v) :: d

/-- JS truthiness test `if (d[k])`: the most recent own binding of `k`;
failing that, the lookup continues on the prototype chain, where any
`Object.prototype` property name reads truthy and every other key reads
undefined, hence falsy. -/
def dictGet : Dict → Str → Bool
  | [], k => decide (k ∈ protoKeys)
  | (k', v) :: rest, tk => if tk = k' then v else dictGet rest tk

structure SpeechRecognitionAlternative where
  confidence : ℚ
  transcript : Str
deriving DecidableEq, Repr

structure MatchResult where
  confidence : ℚ
  id : Str
deriving DecidableEq, Repr

/-- The `Command` interface: anything with a
`match(input) : MatchResult | null` method. -/
structure Command where
  matchFn : SpeechRecognitionAlternative → Option MatchResult

/-! ## Tokenizer (`normalizeInput`) -/

/-- The separator class of the regex `[ ,;.:]`. -/
def seps : List Char := [' ', ',', ';', '.', ':']

def isSep (c : Char) : Bool := decide (c ∈ seps)

/-- Embedding of `val.replace(/[ ,;.:]+/g, ' ')`: each maximal run of
separator characters is replaced by a single space. `inRun` records whether
the previous character belonged to a run whose space was already emitted. -/
def replaceSepsAux : List Char → Bool → List Char
  | [], _ => []
  | c :: rest, inRun =>
    if isSep c then
      if inRun then replaceSepsAux rest true
      else ' ' :: replaceSepsAux rest true
    else c :: replaceSepsAux rest false

def replaceSeps (l : List Char) : List Char := replaceSepsAux l false

/-- `if (val.length > 0 && val[0] === ' ') val = val.substring(1)`. -/
def stripLeadingSpace : List Char → List Char
  | ' ' :: rest => rest
  | l => l

/-- `if (val.length > 0 && val[val.length-1] === ' ')
val = val.substring(0, val.length - 1)`. -/
def stripTrailingSpace (l : List Char) : List Char :=
  (stripLeadingSpace l.reverse).reverse

/-- JS `val.split(' ')`; splitting the empty string yields `[""]`. -/
def splitSpace : List Char → List Str
  | [] => [[]]
  | c :: rest =>
    match splitSpace rest with
    | [] => [[c]]
    | t :: ts => if c = ' ' then [] :: t :: ts else (c :: t) :: ts

def normalizeInput (val : Str) : List Str :=
  splitSpace (stripTrailingSpace (stripLeadingSpace (replaceSeps (val.map Char.toLower))))

/-! ## FuzzyCommand -/

structure FuzzyCommand where
  id : Str
  verbFirst : Bool
  verbs : Dict
  attributes : Dict

/-- The constructor loops `this.verbs[verbs[idx]] = true`. -/
def buildDict (keys : List Str) : Dict :=
  keys.foldl (fun d k => dictSet d k true) []

/-- `new FuzzyCommand(id, verbs, validAttributes, verbFirst = true)`. -/
def mkFuzzyCommand (id : Str) (verbs : List Str) (validAttributes : List Str)
    (verbFirst : Bool := true) : FuzzyCommand :=
  { id := id, verbFirst := verbFirst,
    verbs := buildDict verbs, attributes := buildDict validAttributes }

/-- One iteration of the token loop in `FuzzyCommand.match`; the state is
the current `verb` (null or the found verb) and the collected `args`. -/
def matchStep (c : FuzzyCommand) (st : Option Str × List Str) (token : Str) :
    Option Str × List Str :=
  let verb : Option Str :=
    match st.1 with
    | none => if dictGet c.verbs token then some token else none
    | some v => some v
  let args : List Str :=
    if (verb.isSome || !c.verbFirst) && dictGet c.attributes token
    then st.2 ++ [token] else st.2
  (verb, args)

def matchScan (c : FuzzyCommand) (tokens : List Str) : Option Str × List Str :=
  tokens.foldl (matchStep c) (none, [])

/-- `FuzzyCommand.match(input)`. -/
def FuzzyCommand.matchAlt (c : FuzzyCommand)
    (input : SpeechRecognitionAlternative) : Option MatchResult :=
  let s := matchScan c (normalizeInput input.transcript)
  if s.1.isSome && !s.2.isEmpty then
    some { id := c.id, confidence := input.confidence }
  else none

/-- A `FuzzyCommand` seen through the `Command` interface. -/
def FuzzyCommand.toCommand (c : FuzzyCommand) : Command :=
  ⟨c.matchAlt⟩

/-! ## parse -/

abbrev ParseState := Option MatchResult × Option SpeechRecognitionAlternative

/-- Body of the `if (match !== null)` block in `parse`. -/
def considerMatch (st : ParseState) (alternative : SpeechRecognitionAlternative)
    (m : MatchResult) : ParseState :=
  match st.1 with
  | none => (some m, some alternative)
  | some hm =>
    if hm.confidence < alternative.confidence then (some m, some alternative)
    else st

/-- The two fallback updates of `highestAlternative` at the top of the
outer loop of `parse`. -/
def promoteFallback (st : ParseState)
    (alternative : SpeechRecognitionAlternative) : ParseState :=
  let ha : SpeechRecognitionAlternative :=
    match st.2 with
    | none => alternative
    | some a => a
  let ha : SpeechRecognitionAlternative :=
    if st.1.isNone && decide (ha.confidence < alternative.confidence)
    then alternative else ha
  (st.1, some ha)

/-- The inner loop of `parse` over the command list. -/
def innerLoop (commands : List Command) (st : ParseState)
    (alternative : SpeechRecognitionAlternative) : ParseState :=
  commands.foldl
    (fun st cmd =>
      match cmd.matchFn alternative with
      | none => st
      | some m => considerMatch st alternative m)
    st

/-- One iteration of the outer loop of `parse`. -/
def stepAlt (commands : List Command) (st : ParseState)
    (alternative : SpeechRecognitionAlternative) : ParseState :=
  innerLoop commands (promoteFallback st alternative) alternative

/-- `parse(vals, commands)`. -/
def parse (vals : List SpeechRecognitionAlternative)
    (commands : List Command) : ParseState :=
  vals.foldl (stepAlt commands) (none, none)

/-- The match produced by the first command matching `a`, if any. -/
def firstMatch (commands : List Command)
    (a : SpeechRecognitionAlternative) : Option MatchResult :=
  commands.findSome? (fun c => c.matchFn a)

/-- The highest-confidence alternative, first one winning ties (the running
strict-max promotion of `parse` when no command ever matches). -/
def bestAlt : List SpeechRecognitionAlternative →
    Option SpeechRecognitionAlternative
  | [] => none
  | v :: rest =>
    some (rest.foldl
      (fun b a => if b.confidence < a.confidence then a else b) v)

/-! ## Set-of-string abstraction of the dictionary representation -/

/-- `FuzzyCommand` with verb/attribute membership kept as a plain set of
strings instead of a string-keyed boolean dictionary. -/
structure FuzzyCommandSet where
  id : Str
  verbFirst : Bool
  verbs : List Str
  attributes : List Str

/-- Set membership test replacing the dictionary lookup. -/
def memSet (keys : List Str) (k : Str) : Bool := decide (k ∈ keys)

def matchStepSet (c : FuzzyCommandSet) (st : Option Str × List Str)
    (token : Str) : Option Str × List Str :=
  let verb : Option Str :=
    match st.1 with
    | none => if memSet c.verbs token then some token else none
    | some v => some v
  let args : List Str :=
    if (verb.isSome || !c.verbFirst) && memSet c.attributes token
    then st.2 ++ [token] else st.2
  (verb, args)

def FuzzyCommandSet.matchAlt (c : FuzzyCommandSet)
    (input : SpeechRecognitionAlternative) : Option MatchResult :=
  let s := (normalizeInput input.transcript).foldl (matchStepSet c) (none, [])
  if s.1.isSome && !s.2.isEmpty then
    some { id := c.id, confidence := input.confidence }
  else none

/-! ## Concrete instances used to exercise the theorems -/

def exId : Str := "open-settings".toList
def exVerb : Str := "open".toList
def exAttr : Str := "settings".toList

/-- `new FuzzyCommand("open-settings", ["open"], ["settings"], true)`. -/
def exCmdVF : FuzzyCommand := mkFuzzyCommand exId [exVerb] [exAttr] true

/-- `new FuzzyCommand("open-settings", ["open"], ["settings"], false)`. -/
def exCmdNoVF : FuzzyCommand := mkFuzzyCommand exId [exVerb] [exAttr] false

/-- A `FuzzyCommand` whose verb and attribute lists contain the empty
string. -/
def exCmdEmptyStr : FuzzyCommand :=
  mkFuzzyCommand ['x'] [([] : Str)] [([] : Str)] true

/-! ## Dictionary lemmas -/

lemma dictGet_buildDict_aux :
    ∀ (keys : List Str) (d : Dict) (k : Str), k ∉ protoKeys →
      dictGet (keys.foldl (fun d k => dictSet d k true) d) k =
        (decide (k ∈ keys) || dictGet d k)
  | [], d, k, _ => by simp
  | k' :: keys, d, k, hk => by
    simp only [List.foldl_cons]
    rw [dictGet_buildDict_aux keys (dictSet d k' true) k hk]
    by_cases hp : k' = "__proto__".toList
    · have hne : ¬k = k' := fun h => hk (by rw [h, hp]; decide)
      have hset : dictSet d k' true = d := by
        simp only [dictSet, if_pos hp]
      have hcons : (k ∈ k' :: keys) ↔ k ∈ keys := by
        rw [List.mem_cons]
        exact or_iff_right hne
      rw [hset]
      simp only [hcons]
    · have hset : dictSet d k' true = (k', true) :: d := by
        simp only [dictSet, if_neg hp]
      rw [hset]
      by_cases he : k = k'
      · have h1 : dictGet ((k', true) :: d) k = true := by
          simp only [dictGet, if_pos he]
        rw [h1]
        simp [List.mem_cons, he]
      · have h1 : dictGet ((k', true) :: d) k = dictGet d k := by
          simp only [dictGet, if_neg he]
        have hcons : (k ∈ k' :: keys) ↔ k ∈ keys := by
          rw [List.mem_cons]
          exact or_iff_right he
        rw [h1]
        simp only [hcons]

lemma dictGet_buildDict (keys : List Str) (k : Str) (hk : k ∉ protoKeys) :
    dictGet (buildDict keys) k = decide (k ∈ keys) := by
  rw [buildDict, dictGet_buildDict_aux keys [] k hk]
  simp [dictGet, hk]

/-! ## Scan lemmas for `FuzzyCommand.match` -/

lemma matchStep_some (c : FuzzyCommand) (v : Str) (args : List Str) (t : Str) :
    matchStep c (some v, args) t =
      (some v, if dictGet c.attributes t then args ++ [t] else args) := by
  simp [matchStep]

lemma matchStep_none_verb (c : FuzzyCommand) (args : List Str) (t : Str)
    (h : dictGet c.verbs t = true) :
    matchStep c (none, args) t =
      (some t, if dictGet c.attributes t then args ++ [t] else args) := by
  simp [matchStep, h]

lemma matchStep_none_noverb (c : FuzzyCommand) (args : List Str) (t : Str)
    (h : dictGet c.verbs t = false) :
    matchStep c (none, args) t =
      (none, if !c.verbFirst && dictGet c.attributes t then args ++ [t] else args) := by
  simp [matchStep, h]

lemma foldl_matchStep_verb_some (c : FuzzyCommand) :
    ∀ (ts : List Str) (v : Str) (args : List Str),
      (List.foldl (matchStep c) (some v, args) ts).1 = some v
  | [], _, _ => rfl
  | t :: ts, v, args => by
    simp only [List.foldl_cons, matchStep_some]
    exact foldl_matchStep_verb_some c ts v _

lemma foldl_matchStep_verb_none (c : FuzzyCommand) :
    ∀ (ts : List Str) (args : List Str),
      (List.foldl (matchStep c) (none, args) ts).1 =
        ts.find? (fun tk => dictGet c.verbs tk)
  | [], _ => rfl
  | t :: ts, args => by
    cases h : dictGet c.verbs t
    · simp only [List.foldl_cons, matchStep_none_noverb c args t h]
      rw [foldl_matchStep_verb_none c ts]
      simp [List.find?, h]
    · simp only [List.foldl_cons, matchStep_none_verb c args t h]
      rw [foldl_matchStep_verb_some c ts t]
      simp [List.find?, h]

lemma foldl_matchStep_args_some (c : FuzzyCommand) :
    ∀ (ts : List Str) (v : Str) (args : List Str),
      (List.foldl (matchStep c) (some v, args) ts).2 =
        args ++ ts.filter (fun tk => dictGet c.attributes tk)
  | [], _, _ => by simp [List.foldl_nil]
  | t :: ts, v, args => by
    simp only [List.foldl_cons, matchStep_some]
    rw [foldl_matchStep_args_some c ts v]
    by_cases h : dictGet c.attributes t <;> simp [h, List.filter_cons]

lemma foldl_matchStep_args_verbFirst (c : FuzzyCommand) (hvf : c.verbFirst = true) :
    ∀ (ts : List Str) (args : List Str),
      (List.foldl (matchStep c) (none, args) ts).2 =
        args ++ (ts.dropWhile (fun tk => !dictGet c.verbs tk)).filter
          (fun tk => dictGet c.attributes tk)
  | [], args => by simp [List.foldl_nil]
  | t :: ts, args => by
    cases h : dictGet c.verbs t
    · simp only [List.foldl_cons, matchStep_none_noverb c args t h, hvf]
      simp only [Bool.not_true, Bool.false_and, Bool.false_eq_true, if_false]
      rw [foldl_matchStep_args_verbFirst c hvf ts]
      simp [List.dropWhile_cons, h]
    · simp only [List.foldl_cons, matchStep_none_verb c args t h]
      rw [foldl_matchStep_args_some c ts t]
      by_cases ha : dictGet c.attributes t <;>
        simp [h, ha, List.dropWhile_cons, List.filter_cons]

lemma foldl_matchStep_args_noVerbFirst (c : FuzzyCommand) (hvf : c.verbFirst = false) :
    ∀ (ts : List Str) (args : List Str),
      (List.foldl (matchStep c) (none, args) ts).2 =
        args ++ ts.filter (fun tk => dictGet c.attributes tk)
  | [], args => by simp [List.foldl_nil]
  | t :: ts, args => by
    cases h : dictGet c.verbs t
    · simp only [List.foldl_cons, matchStep_none_noverb c args t h, hvf]
      rw [foldl_matchStep_args_noVerbFirst c hvf ts]
      by_cases ha : dictGet c.attributes t <;> simp [ha, List.filter_cons]
    · simp only [List.foldl_cons, matchStep_none_verb c args t h]
      rw [foldl_matchStep_args_some c ts t]
      by_cases ha : dictGet c.attributes t <;> simp [ha, List.filter_cons]

/-! ## Spec-side tokenizer: collapsing separator runs -/

lemma length_dropWhile_le (p : Char → Bool) (l : List Char) :
    (l.dropWhile p).length ≤ l.length := by
  induction l with
  | nil => simp
  | cons a l ih =>
    by_cases h : p a
    · simp only [List.dropWhile_cons, h, if_true, List.length_cons]
      exact Nat.le_succ_of_le ih
    · simp [List.dropWhile_cons, h]

/-- The spec's description of the regex step: any run of characters from
the separator set becomes a single space. -/
def collapseRuns : List Char → List Char
  | [] => []
  | c :: rest =>
    if isSep c then ' ' :: collapseRuns (rest.dropWhile (fun x => isSep x))
    else c :: collapseRuns rest
termination_by l => l.length
decreasing_by
  · simp only [List.length_cons]
    exact Nat.lt_succ_of_le (length_dropWhile_le _ _)
  · simp

lemma replaceSepsAux_eq_collapseRuns :
    ∀ (l : List Char) (b : Bool),
      replaceSepsAux l b =
        collapseRuns (if b then l.dropWhile (fun x => isSep x) else l)
  | [], b => by cases b <;> simp [replaceSepsAux, collapseRuns]
  | c :: rest, b => by
    cases b
    · cases h : isSep c
      · simp only [replaceSepsAux, h, Bool.false_eq_true, if_false, cond_false]
        rw [replaceSepsAux_eq_collapseRuns rest false]
        simp [collapseRuns, h]
      · simp only [replaceSepsAux, h, if_true]
        rw [replaceSepsAux_eq_collapseRuns rest true]
        simp [collapseRuns, h]
    · cases h : isSep c
      · simp only [replaceSepsAux, h, Bool.false_eq_true, if_false]
        rw [replaceSepsAux_eq_collapseRuns rest false]
        simp [List.dropWhile_cons, h, collapseRuns]
      · simp only [replaceSepsAux, h, if_true]
        rw [replaceSepsAux_eq_collapseRuns rest true]
        simp [List.dropWhile_cons, h]
termination_by l => l.length

lemma replaceSeps_eq_collapseRuns (l : List Char) :
    replaceSeps l = collapseRuns l := by
  rw [replaceSeps, replaceSepsAux_eq_collapseRuns]
  simp

lemma replaceSepsAux_all_sep_true :
    ∀ (l : List Char), (∀ c ∈ l, isSep c = true) → replaceSepsAux l true = []
  | [], _ => rfl
  | c :: rest, h => by
    have hc : isSep c = true := h c (by simp)
    simp only [replaceSepsAux, hc, if_true]
    exact replaceSepsAux_all_sep_true rest (fun x hx => h x (by simp [hx]))

lemma replaceSeps_all_space (l : List Char) (h : ∀ c ∈ l, c = ' ') :
    replaceSeps l = if l = [] then [] else [' '] := by
  cases l with
  | nil => rfl
  | cons c rest =>
    have hc : c = ' ' := h c (by simp)
    have hsep : isSep c = true := by subst hc; decide
    simp only [replaceSeps, replaceSepsAux, hsep, if_true]
    rw [replaceSepsAux_all_sep_true rest
      (fun x hx => by have := h x (by simp [hx]); subst this; decide)]
    simp

/-! ## Helper lemmas about `parse` -/

lemma parse_append (vals : List SpeechRecognitionAlternative)
    (commands : List Command) (a : SpeechRecognitionAlternative) :
    parse (vals ++ [a]) commands = stepAlt commands (parse vals commands) a := by
  simp [parse, List.foldl_append]

lemma promoteFallback_fst (st : ParseState) (a : SpeechRecognitionAlternative) :
    (promoteFallback st a).1 = st.1 := rfl

lemma promoteFallback_of_some (m0 : MatchResult)
    (a0 a : SpeechRecognitionAlternative) :
    promoteFallback (some m0, some a0) a = (some m0, some a0) := rfl

lemma promoteFallback_none_some (b a : SpeechRecognitionAlternative) :
    promoteFallback (none, some b) a =
      (none, some (if b.confidence < a.confidence then a else b)) := by
  by_cases h : b.confidence < a.confidence <;> simp [promoteFallback, h]

lemma promoteFallback_none_none (a : SpeechRecognitionAlternative) :
    promoteFallback (none, none) a = (none, some a) := by
  simp [promoteFallback, lt_irrefl]

lemma innerLoop_no_match :
    ∀ (commands : List Command) (st : ParseState)
      (a : SpeechRecognitionAlternative),
      (∀ c ∈ commands, c.matchFn a = none) → innerLoop commands st a = st
  | [], _, _, _ => rfl
  | c :: rest, st, a, h => by
    simp only [innerLoop, List.foldl_cons, h c (by simp)]
    exact innerLoop_no_match rest st a (fun c' hc' => h c' (by simp [hc']))

lemma innerLoop_keep :
    ∀ (commands : List Command) (st : ParseState)
      (a : SpeechRecognitionAlternative) (m0 : MatchResult),
      st.1 = some m0 → ¬(m0.confidence < a.confidence) →
      innerLoop commands st a = st
  | [], _, _, _, _, _ => rfl
  | c :: rest, st, a, m0, h1, h2 => by
    cases hm : c.matchFn a with
    | none =>
      simp only [innerLoop, List.foldl_cons, hm]
      exact innerLoop_keep rest st a m0 h1 h2
    | some m =>
      have hst : considerMatch st a m = st := by
        simp [considerMatch, h1, h2]
      simp only [innerLoop, List.foldl_cons, hm, hst]
      exact innerLoop_keep rest st a m0 h1 h2

lemma innerLoop_promote :
    ∀ (commands : List Command) (st : ParseState)
      (a : SpeechRecognitionAlternative),
      (∀ c ∈ commands, ∀ m, c.matchFn a = some m →
        m.confidence = a.confidence) →
      (st.1 = none ∨ ∃ m0, st.1 = some m0 ∧ m0.confidence < a.confidence) →
      innerLoop commands st a =
        (match firstMatch commands a with
         | none => st
         | some m => (some m, some a))
  | [], st, a, _, _ => by simp [innerLoop, firstMatch]
  | c :: rest, st, a, hcopy, h => by
    cases hm : c.matchFn a with
    | none =>
      simp only [innerLoop, List.foldl_cons, hm]
      have hr := innerLoop_promote rest st a
        (fun c' hc' => hcopy c' (by simp [hc'])) h
      simp only [innerLoop] at hr
      rw [hr]
      simp [firstMatch, List.findSome?_cons, hm]
    | some m =>
      have hstep : considerMatch st a m = (some m, some a) := by
        rcases h with h1 | ⟨m0, h1, hlt⟩
        · simp [considerMatch, h1]
        · simp [considerMatch, h1, hlt]
      simp only [innerLoop, List.foldl_cons, hm, hstep]
      have hmc : m.confidence = a.confidence := hcopy c (by simp) m hm
      have hr := innerLoop_keep rest (some m, some a) a m rfl
        (by rw [hmc]; exact lt_irrefl _)
      simp only [innerLoop] at hr
      rw [hr]
      simp [firstMatch, List.findSome?_cons, hm]

/-- The relation `parse` maintains between its running best match and best
alternative: a recorded match was produced, by some registered command,
from the recorded alternative. -/
def ParseInv (commands : List Command) (st : ParseState) : Prop :=
  ∀ m, st.1 = some m →
    ∃ a, st.2 = some a ∧ ∃ c ∈ commands, c.matchFn a = some m

lemma considerMatch_inv (commands : List Command) (st : ParseState)
    (a : SpeechRecognitionAlternative) (m : MatchResult) (c : Command)
    (hc : c ∈ commands) (hm : c.matchFn a = some m)
    (hinv : ParseInv commands st) :
    ParseInv commands (considerMatch st a m) := by
  intro m' hm'
  cases hst : st.1 with
  | none =>
    simp only [considerMatch, hst] at hm' ⊢
    cases hm'
    exact ⟨a, rfl, c, hc, hm⟩
  | some m0 =>
    by_cases hlt : m0.confidence < a.confidence
    · simp only [considerMatch, hst, if_pos hlt] at hm' ⊢
      cases hm'
      exact ⟨a, rfl, c, hc, hm⟩
    · simp only [considerMatch, hst, if_neg hlt] at hm' ⊢
      exact hinv m' (hst.trans hm')

lemma innerLoop_inv :
    ∀ (sub commands : List Command) (st : ParseState)
      (a : SpeechRecognitionAlternative),
      (∀ c ∈ sub, c ∈ commands) → ParseInv commands st →
      ParseInv commands (innerLoop sub st a)
  | [], _, _, _, _, hinv => hinv
  | c :: rest, commands, st, a, hsub, hinv => by
    simp only [innerLoop, List.foldl_cons]
    cases hm : c.matchFn a with
    | none =>
      exact innerLoop_inv rest commands st a
        (fun c' hc' => hsub c' (by simp [hc'])) hinv
    | some m =>
      exact innerLoop_inv rest commands _ a
        (fun c' hc' => hsub c' (by simp [hc']))
        (considerMatch_inv commands st a m c (hsub c (by simp)) hm hinv)

lemma promoteFallback_inv (commands : List Command) (st : ParseState)
    (a : SpeechRecognitionAlternative) (hinv : ParseInv commands st) :
    ParseInv commands (promoteFallback st a) := by
  intro m hm
  rw [promoteFallback_fst] at hm
  obtain ⟨a0, ha0, hc⟩ := hinv m hm
  refine ⟨a0, ?_, hc⟩
  simp [promoteFallback, hm, ha0]

lemma stepAlt_inv (commands : List Command) (st : ParseState)
    (a : SpeechRecognitionAlternative) (hinv : ParseInv commands st) :
    ParseInv commands (stepAlt commands st a) :=
  innerLoop_inv commands commands _ a (fun _ hc => hc)
    (promoteFallback_inv commands st a hinv)

lemma foldl_stepAlt_inv (commands : List Command) :
    ∀ (vals : List SpeechRecognitionAlternative) (st : ParseState),
      ParseInv commands st →
      ParseInv commands (List.foldl (stepAlt commands) st vals)
  | [], _, hinv => hinv
  | v :: rest, st, hinv => by
    simp only [List.foldl_cons]
    exact foldl_stepAlt_inv commands rest _ (stepAlt_inv commands st v hinv)

lemma parse_inv (vals : List SpeechRecognitionAlternative)
    (commands : List Command) : ParseInv commands (parse vals commands) :=
  foldl_stepAlt_inv commands vals (none, none) (fun m hm => by cases hm)

lemma innerLoop_snd_isSome :
    ∀ (commands : List Command) (st : ParseState)
      (a : SpeechRecognitionAlternative),
      st.2.isSome = true → ((innerLoop commands st a).2).isSome = true
  | [], _, _, h => h
  | c :: rest, st, a, h => by
    simp only [innerLoop, List.foldl_cons]
    cases hm : c.matchFn a with
    | none => exact innerLoop_snd_isSome rest st a h
    | some m =>
      apply innerLoop_snd_isSome rest _ a
      cases hst : st.1 with
      | none => simp [considerMatch, hst]
      | some m0 =>
        by_cases hlt : m0.confidence < a.confidence
        · simp [considerMatch, hst, hlt]
        · simp only [considerMatch, hst, if_neg hlt]
          exact h

lemma stepAlt_snd_isSome (commands : List Command) (st : ParseState)
    (a : SpeechRecognitionAlternative) :
    ((stepAlt commands st a).2).isSome = true :=
  innerLoop_snd_isSome commands _ a rfl

lemma foldl_stepAlt_snd_isSome (commands : List Command) :
    ∀ (vals : List SpeechRecognitionAlternative) (st : ParseState),
      st.2.isSome = true →
      ((List.foldl (stepAlt commands) st vals).2).isSome = true
  | [], _, h => h
  | v :: rest, st, _ => by
    simp only [List.foldl_cons]
    exact foldl_stepAlt_snd_isSome commands rest _
      (stepAlt_snd_isSome commands st v)

lemma parse_snd_isSome (vals : List SpeechRecognitionAlternative)
    (commands : List Command) (h : vals ≠ []) :
    ((parse vals commands).2).isSome = true := by
  cases vals with
  | nil => exact absurd rfl h
  | cons v rest =>
    simp only [parse, List.foldl_cons]
    exact foldl_stepAlt_snd_isSome commands rest _
      (stepAlt_snd_isSome commands (none, none) v)

/-! ## Confidence copying and fold congruence helpers -/

lemma matchAlt_copies (c : FuzzyCommand) (input : SpeechRecognitionAlternative)
    (r : MatchResult) (h : c.matchAlt input = some r) :
    r.id = c.id ∧ r.confidence = input.confidence := by
  simp only [FuzzyCommand.matchAlt] at h
  split at h
  · cases h
    exact ⟨rfl, rfl⟩
  · cases h

lemma mapped_copy (cs : List FuzzyCommand) (c : Command)
    (hc : c ∈ cs.map FuzzyCommand.toCommand)
    (x : SpeechRecognitionAlternative) (m : MatchResult)
    (h : c.matchFn x = some m) : m.confidence = x.confidence := by
  obtain ⟨fc, _, rfl⟩ := List.mem_map.mp hc
  exact (matchAlt_copies fc x m h).2

lemma foldl_fun_eq_on {α β : Type} (f g : β → α → β) :
    ∀ (l : List α), (∀ a ∈ l, ∀ b, f b a = g b a) → ∀ (init : β),
      List.foldl f init l = List.foldl g init l
  | [], _, _ => rfl
  | a :: l, h, init => by
    rw [List.foldl_cons, List.foldl_cons, h a (by simp)]
    exact foldl_fun_eq_on f g l (fun x hx b => h x (by simp [hx]) b) _

lemma matchAlt_isSome (c : FuzzyCommand) (input : SpeechRecognitionAlternative) :
    (c.matchAlt input).isSome =
      ((matchScan c (normalizeInput input.transcript)).1.isSome &&
        !(matchScan c (normalizeInput input.transcript)).2.isEmpty) := by
  simp only [FuzzyCommand.matchAlt]
  split
  case isTrue h => simp [h]
  case isFalse h =>
    rw [Bool.not_eq_true] at h
    simp [h]

lemma map_toLower_all_space :
    ∀ (s : Str), (∀ c ∈ s, c = ' ') → s.map Char.toLower = s
  | [], _ => rfl
  | c :: rest, h => by
    have hc : c = ' ' := h c (by simp)
    subst hc
    rw [List.map_cons, map_toLower_all_space rest (fun x hx => h x (by simp [hx]))]
    simp [show Char.toLower ' ' = ' ' from by decide]

/-! ## Claims -/

/-- C2: `FuzzyCommand.match` returns a result if and only if the
left-to-right scan of the tokenized transcript finds a token in the verb
set and collects at least one attribute token; the verb is the first
verb-set token, and once set it is never re-set by later tokens. -/
theorem fuzzy_match_characterization (c : FuzzyCommand)
    (input : SpeechRecognitionAlternative) :
    ((c.matchAlt input).isSome = true ↔
      (((normalizeInput input.transcript).find?
          (fun tk => dictGet c.verbs tk)).isSome = true ∧
        (matchScan c (normalizeInput input.transcript)).2 ≠ [])) ∧
    ((matchScan c (normalizeInput input.transcript)).1 =
      (normalizeInput input.transcript).find?
        (fun tk => dictGet c.verbs tk)) ∧
    (∀ (v : Str) (args : List Str) (ts : List Str),
      (List.foldl (matchStep c) (some v, args) ts).1 = some v) := by
  have hs1 : (matchScan c (normalizeInput input.transcript)).1 =
      (normalizeInput input.transcript).find?
        (fun tk => dictGet c.verbs tk) :=
    foldl_matchStep_verb_none c _ _
  refine ⟨?_, hs1, fun v args ts => foldl_matchStep_verb_some c ts v args⟩
  rw [matchAlt_isSome, hs1, Bool.and_eq_true, Bool.not_eq_true',
    List.isEmpty_eq_false_iff_exists_mem]
  constructor
  · rintro ⟨h1, h2⟩
    refine ⟨h1, ?_⟩
    intro heq
    obtain ⟨x, hx⟩ := h2
    rw [heq] at hx
    simp at hx
  · rintro ⟨h1, h2⟩
    refine ⟨h1, ?_⟩
    rcases he : (matchScan c (normalizeInput input.transcript)).2 with _ | ⟨t, ts⟩
    · exact absurd he h2
    · exact ⟨t, List.mem_cons_self t ts⟩

/-- C3: with `verbFirst` true, attribute collection starts at the very
token that sets the verb (so attributes strictly before the verb are not
collected); with `verbFirst` false, every token is tested against the
attribute set; the spec's `"settings open"` / `"please open settings now"`
examples behave accordingly. -/
theorem verbFirst_policy :
    (∀ (c : FuzzyCommand), c.verbFirst = true → ∀ tokens : List Str,
      (matchScan c tokens).2 =
        (tokens.dropWhile (fun tk => !dictGet c.verbs tk)).filter
          (fun tk => dictGet c.attributes tk)) ∧
    (∀ (c : FuzzyCommand), c.verbFirst = false → ∀ tokens : List Str,
      (matchScan c tokens).2 =
        tokens.filter (fun tk => dictGet c.attributes tk)) ∧
    exCmdVF.matchAlt ⟨1, "settings open".toList⟩ = none ∧
    exCmdNoVF.matchAlt ⟨1, "settings open".toList⟩ =
      some { confidence := 1, id := exId } ∧
    exCmdVF.matchAlt ⟨1, "please open settings now".toList⟩ =
      some { confidence := 1, id := exId } := by
  refine ⟨?_, ?_, by decide, by decide, by decide⟩
  · intro c hvf tokens
    exact foldl_matchStep_args_verbFirst c hvf tokens []
  · intro c hvf tokens
    exact foldl_matchStep_args_noVerbFirst c hvf tokens []

theorem verbFirst_policy_w :
    (matchScan exCmdVF (normalizeInput "settings open".toList)).2 =
      ((normalizeInput "settings open".toList).dropWhile
        (fun tk => !dictGet exCmdVF.verbs tk)).filter
        (fun tk => dictGet exCmdVF.attributes tk) ∧
    (matchScan exCmdNoVF (normalizeInput "settings open".toList)).2 =
      (normalizeInput "settings open".toList).filter
        (fun tk => dictGet exCmdNoVF.attributes tk) :=
  ⟨verbFirst_policy.1 exCmdVF rfl _, verbFirst_policy.2.1 exCmdNoVF rfl _⟩

/-- C4: the tokenizer lowercases the input, collapses each run of
characters from `{space, comma, semicolon, period, colon}` into a single
space, strips at most one leading and one trailing space, and splits on
single spaces; an empty or all-space input yields `[""]`. -/
theorem normalizeInput_spec :
    (∀ s : Str, normalizeInput s =
      splitSpace (stripTrailingSpace (stripLeadingSpace
        (collapseRuns (s.map Char.toLower))))) ∧
    (∀ s : Str, (∀ c ∈ s, c = ' ') → normalizeInput s = [[]]) := by
  constructor
  · intro s
    rw [normalizeInput, replaceSeps_eq_collapseRuns]
  · intro s h
    rw [normalizeInput, map_toLower_all_space s h, replaceSeps_all_space s h]
    by_cases hs : s = []
    · rw [if_pos hs]
      rfl
    · rw [if_neg hs]
      rfl

theorem normalizeInput_spec_w :
    normalizeInput ("   ".toList) = [[]] ∧ normalizeInput ([] : Str) = [[]] :=
  ⟨normalizeInput_spec.2 _ (by decide), normalizeInput_spec.2 _ (by decide)⟩

/-- C5: a returned match result carries the command's `id` and, verbatim,
the alternative's `confidence`. -/
theorem match_result_confidence (c : FuzzyCommand)
    (input : SpeechRecognitionAlternative) (r : MatchResult)
    (h : c.matchAlt input = some r) :
    r.id = c.id ∧ r.confidence = input.confidence :=
  matchAlt_copies c input r h

theorem match_result_confidence_w :
    (MatchResult.mk 1 exId).id = exCmdVF.id ∧
    (MatchResult.mk 1 exId).confidence =
      (SpeechRecognitionAlternative.mk 1 ("open settings".toList)).confidence :=
  match_result_confidence exCmdVF ⟨1, "open settings".toList⟩
    ⟨1, exId⟩ (by decide)

lemma foldl_stepAlt_nil :
    ∀ (vals : List SpeechRecognitionAlternative)
      (b : SpeechRecognitionAlternative),
      List.foldl (stepAlt []) (none, some b) vals =
        (none, some (vals.foldl
          (fun x a => if x.confidence < a.confidence then a else x) b))
  | [], _ => rfl
  | v :: rest, b => by
    have hstep : stepAlt [] ((none : Option MatchResult), some b) v =
        (none, some (if b.confidence < v.confidence then v else b)) :=
      promoteFallback_none_some b v
    simp only [List.foldl_cons, hstep]
    exact foldl_stepAlt_nil rest _

/-- C6: `parse` on an empty alternatives list returns `(none, none)`;
with an empty command list it returns `(none, b)` where `b` is the
highest-confidence alternative, the first one winning ties. -/
theorem parse_empty_cases :
    (∀ commands : List Command, parse [] commands = (none, none)) ∧
    (∀ vals : List SpeechRecognitionAlternative,
      parse vals [] = (none, bestAlt vals)) := by
  constructor
  · intro commands
    rfl
  · intro vals
    cases vals with
    | nil => rfl
    | cons v rest =>
      simp only [parse, List.foldl_cons]
      have h0 : stepAlt [] ((none : Option MatchResult),
          (none : Option SpeechRecognitionAlternative)) v = (none, some v) :=
        promoteFallback_none_none v
      rw [h0, foldl_stepAlt_nil rest v]
      rfl

/-- C8 (counterexample): a `FuzzyCommand` whose verb and attribute lists
contain the empty string does match an empty transcript, so the claim's
unrestricted quantification over commands fails. -/
theorem empty_transcript_match_cex :
    exCmdEmptyStr.matchAlt ⟨1, ([] : Str)⟩ ≠ none := by decide

/-- C8 (amended): unless both the verb list and the attribute list contain
the empty string, `match` on an alternative with an empty transcript
returns the absent value — matching never throws, it just fails. -/
theorem empty_transcript_no_match (id : Str)
    (verbs validAttributes : List Str) (verbFirst : Bool) (conf : ℚ)
    (h : ([] : Str) ∉ verbs ∨ ([] : Str) ∉ validAttributes) :
    (mkFuzzyCommand id verbs validAttributes verbFirst).matchAlt
      ⟨conf, []⟩ = none := by
  have htok : normalizeInput ([] : Str) = [([] : Str)] := rfl
  rcases h with h | h
  · have hv : dictGet (buildDict verbs) ([] : Str) = false := by
      rw [dictGet_buildDict verbs ([] : Str) (by decide)]
      simp [h]
    simp [FuzzyCommand.matchAlt, htok, matchScan, matchStep, mkFuzzyCommand, hv]
  · have hattr : dictGet (buildDict validAttributes) ([] : Str) = false := by
      rw [dictGet_buildDict validAttributes ([] : Str) (by decide)]
      simp [h]
    simp [FuzzyCommand.matchAlt, htok, matchScan, matchStep, mkFuzzyCommand, hattr]

theorem empty_transcript_no_match_w :
    (([] : Str) ∉ [exVerb] ∨ ([] : Str) ∉ [exAttr]) ∧
    (mkFuzzyCommand exId [exVerb] [exAttr] true).matchAlt ⟨1, []⟩ = none :=
  ⟨Or.inl (by decide),
    empty_transcript_no_match exId [exVerb] [exAttr] true 1
      (Or.inl (by decide))⟩

/-- C9 (counterexample): on the plain objects the code uses, a token naming
an `Object.prototype` property reads truthy though it was never assigned,
so the dictionary is not the set of the constructor's strings and the
set-based matcher disagrees with the code: `"constructor settings"` matches
a command whose only verb is `"open"`, while the set-based matcher rejects
it. -/
theorem dict_behaves_as_set_cex :
    dictGet (buildDict [exVerb]) ("constructor".toList) = true ∧
    "constructor".toList ∉ [exVerb] ∧
    exCmdVF.matchAlt ⟨1, "constructor settings".toList⟩ =
      some ⟨1, exId⟩ ∧
    FuzzyCommandSet.matchAlt ⟨exId, true, [exVerb], [exAttr]⟩
      ⟨1, "constructor settings".toList⟩ = none :=
  ⟨by decide, by decide, by decide, by decide⟩

/-- C9 (amended): away from `Object.prototype` property names the boolean
dictionary built by the constructor is exactly set membership of the
constructor's key list, and the set-of-string matcher coincides with the
dictionary matcher on every transcript none of whose tokens names an
`Object.prototype` property. -/
theorem dict_behaves_as_set_amended :
    (∀ (keys : List Str) (k : Str), k ∉ protoKeys →
      (dictGet (buildDict keys) k = true ↔ k ∈ keys)) ∧
    (∀ (id : Str) (verbs validAttributes : List Str) (verbFirst : Bool)
      (input : SpeechRecognitionAlternative),
      (∀ tk ∈ normalizeInput input.transcript, tk ∉ protoKeys) →
      (mkFuzzyCommand id verbs validAttributes verbFirst).matchAlt input =
        FuzzyCommandSet.matchAlt
          ⟨id, verbFirst, verbs, validAttributes⟩ input) := by
  constructor
  · intro keys k hk
    rw [dictGet_buildDict keys k hk]
    simp
  · intro id verbs validAttributes verbFirst input htk
    have hstep : ∀ tk ∈ normalizeInput input.transcript, ∀ st,
        matchStep (mkFuzzyCommand id verbs validAttributes verbFirst) st tk =
          matchStepSet ⟨id, verbFirst, verbs, validAttributes⟩ st tk := by
      intro tk htk' st
      have h1 : dictGet (buildDict verbs) tk = memSet verbs tk := by
        rw [dictGet_buildDict verbs tk (htk tk htk'), memSet]
      have h2 : dictGet (buildDict validAttributes) tk =
          memSet validAttributes tk := by
        rw [dictGet_buildDict validAttributes tk (htk tk htk'), memSet]
      simp [matchStep, matchStepSet, mkFuzzyCommand, h1, h2]
    have hfold :
        List.foldl (matchStep (mkFuzzyCommand id verbs validAttributes verbFirst))
            ((none : Option Str), ([] : List Str))
            (normalizeInput input.transcript) =
          List.foldl (matchStepSet ⟨id, verbFirst, verbs, validAttributes⟩)
            (none, []) (normalizeInput input.transcript) :=
      foldl_fun_eq_on _ _ (normalizeInput input.transcript) hstep _
    simp only [FuzzyCommand.matchAlt, FuzzyCommandSet.matchAlt, matchScan, hfold]
    rfl

theorem dict_behaves_as_set_amended_w :
    (dictGet (buildDict [exVerb]) exAttr = true ↔ exAttr ∈ [exVerb]) ∧
    (mkFuzzyCommand exId [exVerb] [exAttr] true).matchAlt
        ⟨1, "open settings".toList⟩ =
      FuzzyCommandSet.matchAlt ⟨exId, true, [exVerb], [exAttr]⟩
        ⟨1, "open settings".toList⟩ :=
  ⟨dict_behaves_as_set_amended.1 [exVerb] exAttr (by decide),
    dict_behaves_as_set_amended.2 exId [exVerb] [exAttr] true
      ⟨1, "open settings".toList⟩ (by decide)⟩

/-- C1: the first match encountered is adopted unconditionally, setting
both the best match and the best alternative; a later alternative's match
displaces it only when that alternative's confidence strictly exceeds the
best match's confidence — on ties or lower the state is unchanged. -/
theorem parse_first_match_tiebreak
    (vals : List SpeechRecognitionAlternative) (cs : List FuzzyCommand)
    (a : SpeechRecognitionAlternative) :
    ((parse vals (cs.map FuzzyCommand.toCommand)).1 = none →
      ∀ m, firstMatch (cs.map FuzzyCommand.toCommand) a = some m →
        parse (vals ++ [a]) (cs.map FuzzyCommand.toCommand) =
          (some m, some a)) ∧
    (∀ m0, (parse vals (cs.map FuzzyCommand.toCommand)).1 = some m0 →
      m0.confidence < a.confidence →
      ∀ m, firstMatch (cs.map FuzzyCommand.toCommand) a = some m →
        parse (vals ++ [a]) (cs.map FuzzyCommand.toCommand) =
          (some m, some a)) ∧
    (∀ m0, (parse vals (cs.map FuzzyCommand.toCommand)).1 = some m0 →
      a.confidence ≤ m0.confidence →
      parse (vals ++ [a]) (cs.map FuzzyCommand.toCommand) =
        parse vals (cs.map FuzzyCommand.toCommand)) := by
  have hcopy : ∀ c ∈ cs.map FuzzyCommand.toCommand, ∀ m,
      c.matchFn a = some m → m.confidence = a.confidence :=
    fun c hc m hm => mapped_copy cs c hc a m hm
  refine ⟨?_, ?_, ?_⟩
  · intro h0 m hm
    rw [parse_append, stepAlt]
    have hr := innerLoop_promote (cs.map FuzzyCommand.toCommand)
      (promoteFallback (parse vals (cs.map FuzzyCommand.toCommand)) a) a
      hcopy (Or.inl (by rw [promoteFallback_fst]; exact h0))
    rw [hr, hm]
  · intro m0 h0 hlt m hm
    rw [parse_append, stepAlt]
    have hr := innerLoop_promote (cs.map FuzzyCommand.toCommand)
      (promoteFallback (parse vals (cs.map FuzzyCommand.toCommand)) a) a
      hcopy (Or.inr ⟨m0, by rw [promoteFallback_fst]; exact h0, hlt⟩)
    rw [hr, hm]
  · intro m0 h0 hle
    obtain ⟨a0, ha0, -⟩ :=
      parse_inv vals (cs.map FuzzyCommand.toCommand) m0 h0
    have hp : parse vals (cs.map FuzzyCommand.toCommand) = (some m0, some a0) :=
      Prod.ext h0 ha0
    rw [parse_append, hp, stepAlt, promoteFallback_of_some]
    exact innerLoop_keep (cs.map FuzzyCommand.toCommand) (some m0, some a0) a
      m0 rfl (not_lt.mpr hle)

theorem parse_first_match_tiebreak_w :
    parse ([] ++ [⟨1, "open settings".toList⟩])
        ([exCmdVF].map FuzzyCommand.toCommand) =
      (some ⟨1, exId⟩, some ⟨1, "open settings".toList⟩) ∧
    parse ([⟨1, "open settings".toList⟩] ++ [⟨2, "open settings".toList⟩])
        ([exCmdVF].map FuzzyCommand.toCommand) =
      (some ⟨2, exId⟩, some ⟨2, "open settings".toList⟩) ∧
    parse ([⟨1, "open settings".toList⟩] ++ [⟨1, "please open settings".toList⟩])
        ([exCmdVF].map FuzzyCommand.toCommand) =
      parse [⟨1, "open settings".toList⟩]
        ([exCmdVF].map FuzzyCommand.toCommand) :=
  ⟨(parse_first_match_tiebreak [] [exCmdVF] ⟨1, "open settings".toList⟩).1
      rfl ⟨1, exId⟩ (by decide),
    (parse_first_match_tiebreak [⟨1, "open settings".toList⟩] [exCmdVF]
        ⟨2, "open settings".toList⟩).2.1 ⟨1, exId⟩ (by decide) (by decide)
      ⟨2, exId⟩ (by decide),
    (parse_first_match_tiebreak [⟨1, "open settings".toList⟩] [exCmdVF]
        ⟨1, "please open settings".toList⟩).2.2 ⟨1, exId⟩ (by decide)
      (by decide)⟩

/-- C7: once any match has been recorded, an alternative matching no
command leaves both components of the result of `parse` unchanged. -/
theorem unmatched_cannot_displace
    (vals : List SpeechRecognitionAlternative) (commands : List Command)
    (a : SpeechRecognitionAlternative) (m0 : MatchResult)
    (h1 : (parse vals commands).1 = some m0)
    (h2 : ∀ c ∈ commands, c.matchFn a = none) :
    parse (vals ++ [a]) commands = parse vals commands := by
  obtain ⟨a0, ha0, -⟩ := parse_inv vals commands m0 h1
  have hp : parse vals commands = (some m0, some a0) := Prod.ext h1 ha0
  rw [parse_append, hp, stepAlt, promoteFallback_of_some]
  exact innerLoop_no_match commands _ a h2

theorem unmatched_cannot_displace_w :
    parse ([⟨1, "open settings".toList⟩] ++ [⟨2, "hello".toList⟩])
        [exCmdVF.toCommand] =
      parse [⟨1, "open settings".toList⟩] [exCmdVF.toCommand] :=
  unmatched_cannot_displace [⟨1, "open settings".toList⟩]
    [exCmdVF.toCommand] ⟨2, "hello".toList⟩ ⟨1, exId⟩ (by decide) (by decide)

/-- C10: for a non-empty alternatives list `parse` returns an alternative,
and any returned match was produced from that very alternative by a
registered command, so its confidence equals the alternative's. -/
theorem parse_result_consistent
    (vals : List SpeechRecognitionAlternative) (cs : List FuzzyCommand)
    (h : vals ≠ []) :
    ((parse vals (cs.map FuzzyCommand.toCommand)).2).isSome = true ∧
    (∀ m, (parse vals (cs.map FuzzyCommand.toCommand)).1 = some m →
      ∃ a, (parse vals (cs.map FuzzyCommand.toCommand)).2 = some a ∧
        m.confidence = a.confidence ∧
        ∃ c ∈ cs, c.matchAlt a = some m) := by
  refine ⟨parse_snd_isSome vals _ h, ?_⟩
  intro m hm
  obtain ⟨a, ha, c, hc, hcm⟩ :=
    parse_inv vals (cs.map FuzzyCommand.toCommand) m hm
  obtain ⟨fc, hfc, rfl⟩ := List.mem_map.mp hc
  exact ⟨a, ha, (matchAlt_copies fc a m hcm).2, fc, hfc, hcm⟩

theorem parse_result_consistent_w :
    ((parse [⟨1, "open settings".toList⟩]
        ([exCmdVF].map FuzzyCommand.toCommand)).2).isSome = true :=
  (parse_result_consistent [⟨1, "open settings".toList⟩] [exCmdVF]
    (by decide)).1

end VoiceAssist
